import Mathlib

/-!
Verification of the YOLO object-detection postprocessing pipeline of
`deepplantphenomics/deepplantpheno.py` (box decoding, confidence filtering,
non-maximum suppression, patch stitching and mAP evaluation).

Modelling conventions (shallow embedding of the Python/numpy source):

* Machine floats are modelled as exact rationals `ℚ`.  The only places the
  source can produce a non-finite float are unguarded divisions whose
  denominator is zero; these are modelled with `Option ℚ`, where `none`
  stands for the IEEE-754 NaN produced by numpy's `0.0 / 0.0`.  Every such
  division in the source (`__compute_iou`, the recall division in
  `__yolo_map`) has numerator `0` whenever its denominator is `0`, so `none`
  never has to stand for an infinity.
* Ordered comparisons against a possibly-NaN value follow IEEE semantics:
  any comparison with NaN is false (`nanLt`, `nanGt`, `nanGe`).
* numpy arrays are modelled as `List`s, and vectorised numpy expressions
  element-wise.
* `np.argsort` (ascending) followed by indexing is modelled directly on the
  value lists; `np.argsort` is stable on the tiny arrays involved (numpy's
  introsort falls back to insertion sort), and taking the last element of the
  stably ascending-sorted index array selects the last occurrence of the
  maximal value, which is what `pickCur` computes.
-/

/-- An axis-aligned box in corner form `(x1, y1, x2, y2)`,
as consumed by `__compute_iou`. -/
structure Box where
  x1 : ℚ
  y1 : ℚ
  x2 : ℚ
  y2 : ℚ
deriving DecidableEq, Repr

/-- A candidate detection: a corner-form box together with its (already
sigmoid-transformed) confidence, the `[x1, y1, x2, y2, conf]` rows of the
source. -/
abbrev Cand := Box × ℚ

/-- Width `x2 - x1` of a box. -/
def boxW (b : Box) : ℚ := b.x2 - b.x1

/-- Height `y2 - y1` of a box. -/
def boxH (b : Box) : ℚ := b.y2 - b.y1

/-- `intersection_area` of `__compute_iou`:
`max(0, x2-x1) * max(0, y2-y1)` over the overlap corners. -/
def interArea (b1 b2 : Box) : ℚ :=
  max 0 (min b1.x2 b2.x2 - max b1.x1 b2.x1) * max 0 (min b1.y2 b2.y2 - max b1.y1 b2.y1)

/-- `(box[2] - box[0]) * (box[3] - box[1])`, the (signed) area of a box. -/
def boxArea (b : Box) : ℚ := (b.x2 - b.x1) * (b.y2 - b.y1)

/-- `union_area` of `__compute_iou`. -/
def unionArea (b1 b2 : Box) : ℚ := boxArea b1 + boxArea b2 - interArea b1 b2

/-- `__compute_iou`: `intersection_area / union_area`, an *unguarded* float
division.  When the union is `0` the intersection is also `0` (proved below),
so numpy computes `0.0 / 0.0 = NaN`; this is the `none` case. -/
def compute_iou (b1 b2 : Box) : Option ℚ :=
  if unionArea b1 b2 = 0 then none
  else some (interArea b1 b2 / unionArea b1 b2)

/-- IEEE `<` against a possibly-NaN left operand: NaN compares false. -/
def nanLt (a : Option ℚ) (t : ℚ) : Bool :=
  match a with
  | none => false
  | some q => decide (q < t)

/-- IEEE `>` against a possibly-NaN left operand: NaN compares false. -/
def nanGt (a : Option ℚ) (t : ℚ) : Bool :=
  match a with
  | none => false
  | some q => decide (t < q)

/-- IEEE `>=` against a possibly-NaN left operand: NaN compares false. -/
def nanGe (a : Option ℚ) (t : ℚ) : Bool :=
  match a with
  | none => false
  | some q => decide (t ≤ q)

/-- `np.argmax` over a rational list: index of the first occurrence of the
maximum (numpy breaks ties by the lowest index); `0` on the empty list. -/
def npArgmaxQ : List ℚ → ℕ
  | [] => 0
  | [_] => 0
  | a :: b :: t =>
    let m := npArgmaxQ (b :: t)
    if a < (b :: t).getD m 0 then m + 1 else 0

/-- numpy comparison used by `np.argmax` over possibly-NaN values: NaN
(`none`) ranks above every number, so `np.argmax` returns the first NaN when
one is present. -/
def oGT : Option ℚ → Option ℚ → Bool
  | none, none => false
  | none, some _ => true
  | some _, none => false
  | some a, some b => decide (b < a)

/-- `np.argmax` over a float list that may contain NaN (`none`): first index
of the maximum, with NaN ranking above every number. -/
def npArgmaxO : List (Option ℚ) → ℕ
  | [] => 0
  | [_] => 0
  | a :: b :: t =>
    let m := npArgmaxO (b :: t)
    if oGT ((b :: t).getD m none) a then m + 1 else 0

/-- Placeholder candidate used only for out-of-range `getD` lookups, which
never happen on the inputs the source can produce. -/
def dfltCand : Cand := (⟨0, 0, 0, 0⟩, 0)

/-- The responsible-box selection of `__yolo_filter_predictions`: in each
grid cell, the box with the highest confidence
(`max_conf_idx = np.argmax(preds[..., 4])`). -/
def responsible (cell : List Cand) : Cand :=
  cell.getD (npArgmaxQ (cell.map (·.2))) dfltCand

/-- The per-cell detection decision of
`forward_pass_with_interpreted_outputs`: select the anchor with maximal
sigmoid confidence (`max_conf_idx = np.argmax(box_confs)`, ties to the lowest
index) and emit it only when its confidence is strictly above the detection
threshold (`if box_confs[max_conf_idx] > 0.6`).  The input list holds the
already-sigmoid-transformed confidences `expit(img_data[...])`. -/
def decodeCell (thresh : ℚ) (confs : List ℚ) : Option ℕ :=
  let m := npArgmaxQ confs
  if thresh < confs.getD m 0 then some m else none

/-- The box that `np.argsort`-based selection takes from `conf_order`:
`conf_order[-1]` of a stably ascending-sorted index list is the last
occurrence of the maximal confidence, which this fold computes directly on
the value list. -/
def pickCur (a : Cand) (l : List Cand) : Cand :=
  l.foldl (fun best x => if best.2 ≤ x.2 then x else best) a

/-- The NMS `while` loop of `__yolo_filter_predictions`: take the most
confident remaining box `cur`, append it to `maximal_idx`, keep only the
remaining boxes with `pair_iou[cur, j] < overlap_threshold`
(`non_overlap`), and break when no box is kept (`np.any(non_overlap)` is
false).  A box whose IoU with `cur` is `>= t` — or NaN — is removed.  The
`fuel` argument bounds the iteration count; `none` models the source looping
forever (which happens when `cur` itself survives its own filter, e.g. for a
negative-area box whose self-IoU is `0 < t`).  `fuel = length` suffices
whenever each selected box removes itself. -/
def nms (t : ℚ) : ℕ → List Cand → Option (List Cand)
  | _, [] => some []
  | 0, _ :: _ => none
  | fuel+1, a :: l =>
    let cur := pickCur a l
    let kept := (a :: l).filter (fun c => nanLt (compute_iou cur.1 c.1) t)
    if kept.isEmpty then some [cur]
    else (nms t fuel kept).map (fun out => cur :: out)

/-- The Detection Filter on a candidate list: the significance threshold
(`sig_mask = preds[:, 4] > self._THRESH_SIG`) followed by the NMS loop.  The
source returns `None` when no candidate is significant; `__yolo_map` treats
that exactly like an empty detection list, so it is modelled as `[]`. -/
def filterCands (tSig tOv : ℚ) (cands : List Cand) : Option (List Cand) :=
  let sig := cands.filter (fun c => decide (tSig < c.2))
  nms tOv sig.length sig

/-- `__yolo_filter_predictions`: responsible-box selection in each grid
cell, then significance threshold, then NMS.  Defaults in the source:
`_THRESH_SIG = 0.6`, `_THRESH_OVERLAP = 0.3`. -/
def yolo_filter_predictions (tSig tOv : ℚ) (preds : List (List Cand)) :
    Option (List Cand) :=
  filterCands tSig tOv (preds.map responsible)

/-- The per-detection matching loop of `__yolo_map`: for each prediction `d`
in array order, `j = np.argmax(pair_ious[i, :])`; if `pair_ious[i, j] >=
correctness_threshold and not im_lab[j, 6]` record a true positive and set
the claimed flag `im_lab[j, 6] = 1`, else record a false positive.  `claimed`
is the seventh label column, one flag per ground-truth box of this image.
(The source would raise on an empty label array; the caller never produces
one, and no theorem relies on that case.) -/
def matchGo (tCor : ℚ) (labs : List Box) : List Cand → List Bool → List (ℚ × Bool)
  | [], _ => []
  | d :: ds, claimed =>
    let ious := labs.map (fun g => compute_iou d.1 g)
    let j := npArgmaxO ious
    if nanGe (ious.getD j none) tCor && !(claimed.getD j true) then
      (d.2, true) :: matchGo tCor labs ds (claimed.set j true)
    else
      (d.2, false) :: matchGo tCor labs ds claimed

/-- Matching of one image's detections against its ground truth: the claimed
flags start out all clear (`np.zeros((n_lab, 1))`), fresh for every image. -/
def matchImage (tCor : ℚ) (labs : List Box) (dets : List Cand) : List (ℚ × Bool) :=
  matchGo tCor labs dets (List.replicate labs.length false)

/-- One image's contribution to the detection records of `__yolo_map`:
`None` predictions are skipped, `None` labels make every detection a false
positive, otherwise the matching loop runs. -/
def imageDetections (tCor : ℚ) : Option (List Box) → Option (List Cand) → List (ℚ × Bool)
  | _, none => []
  | none, some dets => dets.map (fun d => (d.2, false))
  | some labs, some dets => matchImage tCor labs dets

/-- The detection-record list of `__yolo_map`: the per-image records of the
zipped label/prediction lists, concatenated in image order. -/
def buildDetections (tCor : ℚ) (labels : List (Option (List Box)))
    (preds : List (Option (List Cand)))  : List (ℚ × Bool) :=
  ((labels.zip preds).map (fun lp => imageDetections tCor lp.1 lp.2)).flatten

/-- `n_truths` of `__yolo_map`: the total ground-truth box count over all
images (`None` counts zero). -/
def nTruths (labels : List (Option (List Box))) : ℕ :=
  (labels.map (fun lab => match lab with | none => 0 | some l => l.length)).sum

/-- Stable descending insertion used to model
`sorted(detections, key=lambda d: d[0], reverse=True)` (Python's sort is
stable; ties keep their original order). -/
def insertDesc (a : ℚ × Bool) : List (ℚ × Bool) → List (ℚ × Bool)
  | [] => [a]
  | b :: l => if b.1 < a.1 then a :: b :: l else b :: insertDesc a l

/-- Stable sort of the detection records by descending confidence. -/
def sortDesc (l : List (ℚ × Bool)) : List (ℚ × Bool) :=
  l.foldl (fun acc a => insertDesc a acc) []

/-- `np.cumsum`. -/
def cumsum (l : List ℚ) : List ℚ :=
  (l.scanl (· + ·) 0).tail

/-- The backward maximum pass of `__yolo_map`
(`precision[i-1] = np.max((precision[i], precision[i-1]))`, iterating from
the end): makes precision the maximum precision at further recalls. -/
def backMax : List ℚ → List ℚ
  | [] => []
  | [a] => [a]
  | a :: b :: t =>
    match backMax (b :: t) with
    | [] => [a]
    | c :: r => max a c :: c :: r

/-- Float subtraction with NaN propagation. -/
def oSub : Option ℚ → Option ℚ → Option ℚ
  | some a, some b => some (a - b)
  | _, _ => none

/-- `np.sum` over floats with NaN propagation. -/
def oSum (l : List (Option ℚ)) : Option ℚ :=
  l.foldr (fun a s =>
    match a, s with
    | some x, some y => some (x + y)
    | _, _ => none) (some 0)

/-- `__yolo_map`: build the detection records, return `0` when there are
none, otherwise sort by descending confidence, build the precision and
recall curves and integrate.  The recall division
`true_positives / n_truths` is *unguarded*: when `n_truths == 0` numpy
computes `0.0 / 0.0 = NaN` for every entry (the cumulative true-positive
count is then `0`), modelled by `none`; the NaN then propagates through the
area computation whenever the sum is non-empty. -/
def yolo_map (tCor : ℚ) (labels : List (Option (List Box)))
    (preds : List (Option (List Cand))) : Option ℚ :=
  let detections := buildDetections tCor labels preds
  if detections.isEmpty then some 0
  else
    let sorted := sortDesc detections
    let nT : ℚ := (nTruths labels : ℕ)
    let tps := cumsum (sorted.map (fun d => if d.2 then (1 : ℚ) else 0))
    let precision := (List.range sorted.length).map
      (fun k => tps.getD k 0 / (k + 1 : ℚ))
    let recalls : List (Option ℚ) := tps.map
      (fun c => if nT = 0 then none else some (c / nT))
    let prec2 := backMax precision
    oSum (List.zipWith (fun p rr => oSub rr.1 rr.2 |>.map (p * ·))
      prec2.tail (recalls.tail.zip recalls))

/-- The grid and image geometry used by `__yolo_coord_convert`
(`self._grid_w`, `self._grid_h`, `self._image_width`, `self._image_height`). -/
structure Grid where
  gw : ℕ
  gh : ℕ
  iw : ℚ
  ih : ℚ

/-- The `xywh_to_xyxy` helper of `__yolo_coord_convert`, element-wise at
grid-cell index `i`: `x_centre = i % grid_w`, `y_centre = i // grid_w`,
`scale_x = image_width / grid_w`, `scale_y = image_height / grid_h`; the
centre is offset and scaled and the scaled size is halved onto both sides.
For predictions the source passes `x = expit(tx)`, `y = expit(ty)`,
`w = exp(tw) * anchor_w`, `h = exp(th) * anchor_h`; the transcendental
activations are applied upstream, so their values arrive here as plain
rational inputs. -/
def xywh_to_xyxy (g : Grid) (i : ℕ) (x y w h : ℚ) : Box :=
  let xc : ℚ := (i % g.gw : ℕ)
  let yc : ℚ := (i / g.gw : ℕ)
  let sx := g.iw / (g.gw : ℚ)
  let sy := g.ih / (g.gh : ℚ)
  let X := (x + xc) * sx
  let Y := (y + yc) * sy
  let W := w * sx
  let H := h * sy
  ⟨X - W / 2, Y - H / 2, X + W / 2, Y + H / 2⟩

/-- Python's `int(...)` on a float: truncation toward zero. -/
def pyInt (q : ℚ) : ℤ :=
  if 0 ≤ q then ⌊q⌋ else -⌊-q⌋

/-- The per-cell box decoding of the patching branch of
`forward_pass_with_interpreted_outputs`, for patch index `i` and cell index
`j`: `c_x = j % grid_w`, `c_y = j // grid_w`,
`x = (expit(tx) + c_x) * (patch_width / grid_w) + (i % num_patches_horiz) * patch_width`,
`y = (expit(ty) + c_y) * (patch_height / grid_h) + (i // num_patches_horiz) * patch_height`,
`w = exp(tw) * prior_w * (image_width / grid_w)`,
`h = exp(th) * prior_h * (image_height / grid_h)`, and corners
`(int(x - w/2), int(y - h/2))`, `(int(x + w/2), int(y + h/2))`.
`σx, σy, ew, eh` are the values of `expit(tx), expit(ty), exp(tw), exp(th)`. -/
def patchDecode (gw gh : ℕ) (pw ph iw ih : ℚ) (nph : ℕ) (aw ah : ℚ)
    (i j : ℕ) (σx σy ew eh : ℚ) : ℤ × ℤ × ℤ × ℤ :=
  let cx : ℚ := (j % gw : ℕ)
  let cy : ℚ := (j / gw : ℕ)
  let x := (σx + cx) * (pw / (gw : ℚ)) + ((i % nph : ℕ) : ℚ) * pw
  let y := (σy + cy) * (ph / (gh : ℚ)) + ((i / nph : ℕ) : ℚ) * ph
  let w := ew * aw * (iw / (gw : ℚ))
  let h := eh * ah * (ih / (gh : ℚ))
  (pyInt (x - w / 2), pyInt (y - h / 2), pyInt (x + w / 2), pyInt (y + h / 2))

/-- Stable ascending insertion on (value, index) pairs, used to model
`np.argsort` (ties keep the lower index first). -/
def insertAsc (p : ℚ × ℕ) : List (ℚ × ℕ) → List (ℚ × ℕ)
  | [] => [p]
  | q :: l => if p.1 < q.1 then p :: q :: l else q :: insertAsc p l

/-- `np.argsort` of a confidence array, ascending and stable. -/
def argsortAsc (vals : List ℚ) : List ℕ :=
  ((vals.enum.map (fun p => (p.2, p.1))).foldl (fun acc p => insertAsc p acc) []).map (·.2)

/-- The NMS `while` loop of `forward_pass_with_interpreted_outputs` on the
index list `idxs` (ascending by confidence): select `i = idxs[last]`, append
it, and `np.delete` the `suppress` positions — `last` itself plus every
earlier position whose IoU with box `i` is strictly greater than the
overlap threshold (`if iou > 0.3`).  The selected position is always
deleted, so the list shrinks every iteration and `fuel = length` suffices;
the `fuel = 0` branch is unreachable then. -/
def nmsFpGo (cands : List Cand) (t : ℚ) : ℕ → List ℕ → List ℕ
  | _, [] => []
  | 0, _ :: _ => []
  | fuel+1, idxs@(_ :: _) =>
    let i := idxs.getLast?.getD 0
    let rest := idxs.dropLast.filter
      (fun k => !(nanGt (compute_iou (cands.getD i dfltCand).1 (cands.getD k dfltCand).1) t))
    i :: nmsFpGo cands t fuel rest

/-- The post-decode NMS of `forward_pass_with_interpreted_outputs`:
`idxs = np.argsort(all_boxes[:, 4])`, the loop above, then
`all_boxes[final_boxes_idxs, :]`. -/
def nmsForward (t : ℚ) (cands : List Cand) : List Cand :=
  let idxs := argsortAsc (cands.map (·.2))
  (nmsFpGo cands t idxs.length idxs).map (fun k => cands.getD k dfltCand)

/-- The per-image interpreted-output computation under patching: the decoded
candidates of all patches are accumulated into one pooled list
(`total_pred_boxes`, appended across the whole patch loop) and NMS runs once
over that pooled list, after the patch loop. -/
def interpretImage (t : ℚ) (patchCands : List (List Cand)) : List Cand :=
  nmsForward t patchCands.flatten

/-! ### Basic IoU lemmas -/

theorem interArea_comm (b1 b2 : Box) : interArea b1 b2 = interArea b2 b1 := by
  unfold interArea
  rw [min_comm b1.x2, max_comm b1.x1, min_comm b1.y2, max_comm b1.y1]

theorem unionArea_comm (b1 b2 : Box) : unionArea b1 b2 = unionArea b2 b1 := by
  unfold unionArea
  rw [interArea_comm, add_comm]

theorem compute_iou_comm (b1 b2 : Box) : compute_iou b1 b2 = compute_iou b2 b1 := by
  unfold compute_iou
  rw [unionArea_comm, interArea_comm]

theorem interArea_nonneg (b1 b2 : Box) : 0 ≤ interArea b1 b2 :=
  mul_nonneg (le_max_left 0 _) (le_max_left 0 _)

theorem interArea_eq_zero_of_unionArea_eq_zero (b1 b2 : Box)
    (h : unionArea b1 b2 = 0) : interArea b1 b2 = 0 := by
  by_contra hne
  have hpos : 0 < interArea b1 b2 := (interArea_nonneg b1 b2).lt_of_ne (Ne.symm hne)
  have hw : 0 < max 0 (min b1.x2 b2.x2 - max b1.x1 b2.x1) := by
    rcases mul_pos_iff.mp hpos with ⟨h1, _⟩ | ⟨h1, _⟩
    · exact h1
    · exact absurd h1 (not_lt.mpr (le_max_left 0 _))
  have hh : 0 < max 0 (min b1.y2 b2.y2 - max b1.y1 b2.y1) := by
    rcases mul_pos_iff.mp hpos with ⟨_, h2⟩ | ⟨h2, _⟩
    · exact h2
    · exact absurd h2 (not_lt.mpr (le_max_left 0 _))
  have hwv : 0 < min b1.x2 b2.x2 - max b1.x1 b2.x1 := by
    rcases lt_max_iff.mp hw with h' | h'
    · exact absurd h' (lt_irrefl 0)
    · exact h'
  have hhv : 0 < min b1.y2 b2.y2 - max b1.y1 b2.y1 := by
    rcases lt_max_iff.mp hh with h' | h'
    · exact absurd h' (lt_irrefl 0)
    · exact h'
  have hI : interArea b1 b2 = (min b1.x2 b2.x2 - max b1.x1 b2.x1) * (min b1.y2 b2.y2 - max b1.y1 b2.y1) := by
    unfold interArea
    rw [max_eq_right hwv.le, max_eq_right hhv.le]
  have hw1 : min b1.x2 b2.x2 - max b1.x1 b2.x1 ≤ b1.x2 - b1.x1 :=
    sub_le_sub (min_le_left _ _) (le_max_left _ _)
  have hh1 : min b1.y2 b2.y2 - max b1.y1 b2.y1 ≤ b1.y2 - b1.y1 :=
    sub_le_sub (min_le_left _ _) (le_max_left _ _)
  have hw2 : min b1.x2 b2.x2 - max b1.x1 b2.x1 ≤ b2.x2 - b2.x1 :=
    sub_le_sub (min_le_right _ _) (le_max_right _ _)
  have hh2 : min b1.y2 b2.y2 - max b1.y1 b2.y1 ≤ b2.y2 - b2.y1 :=
    sub_le_sub (min_le_right _ _) (le_max_right _ _)
  have ha1 : interArea b1 b2 ≤ boxArea b1 := by
    rw [hI]; unfold boxArea
    exact mul_le_mul hw1 hh1 hhv.le (le_trans hwv.le hw1)
  have ha2 : interArea b1 b2 ≤ boxArea b2 := by
    rw [hI]; unfold boxArea
    exact mul_le_mul hw2 hh2 hhv.le (le_trans hwv.le hw2)
  have : 0 < unionArea b1 b2 := by
    unfold unionArea
    nlinarith [hpos, ha1, ha2]
  exact absurd h this.ne'

theorem compute_iou_self_of_nonneg (b : Box) (hw : 0 ≤ boxW b) (hh : 0 ≤ boxH b) :
    compute_iou b b = none ∨ compute_iou b b = some 1 := by
  have hI : interArea b b = boxArea b := by
    unfold interArea boxArea
    unfold boxW at hw
    unfold boxH at hh
    rw [min_self, min_self, max_self, max_self, max_eq_right hw, max_eq_right hh]
  have hU : unionArea b b = boxArea b := by
    unfold unionArea; rw [hI]; ring
  unfold compute_iou
  rw [hU, hI]
  by_cases hz : boxArea b = 0
  · left; simp [hz]
  · right; simp [hz, div_self hz]

theorem selfNanLt_false (b : Box) (hw : 0 ≤ boxW b) (hh : 0 ≤ boxH b) {t : ℚ}
    (ht : t ≤ 1) : nanLt (compute_iou b b) t = false := by
  rcases compute_iou_self_of_nonneg b hw hh with h | h <;> rw [h] <;> simp [nanLt]
  exact ht

/-! ### Lemmas about the maximal-confidence selection `pickCur` -/

theorem pickCur_step (a x : Cand) (xs : List Cand) :
    pickCur a (x :: xs) = pickCur (if a.2 ≤ x.2 then x else a) xs := rfl

theorem pickCur_mem : ∀ (l : List Cand) (a : Cand), pickCur a l ∈ a :: l := by
  intro l
  induction l with
  | nil => intro a; simp [pickCur]
  | cons x xs ih =>
    intro a
    rw [pickCur_step]
    rcases List.mem_cons.mp (ih (if a.2 ≤ x.2 then x else a)) with hm | hm
    · rw [hm]
      by_cases hc : a.2 ≤ x.2 <;> simp [hc]
    · simp [hm]

theorem pickCur_conf_ge_start : ∀ (l : List Cand) (a : Cand), a.2 ≤ (pickCur a l).2 := by
  intro l
  induction l with
  | nil => intro a; simp [pickCur]
  | cons x xs ih =>
    intro a
    rw [pickCur_step]
    refine le_trans ?_ (ih _)
    by_cases hc : a.2 ≤ x.2 <;> simp [hc]

theorem pickCur_conf_ge : ∀ (l : List Cand) (a : Cand), ∀ c ∈ a :: l, c.2 ≤ (pickCur a l).2 := by
  intro l
  induction l with
  | nil =>
    intro a c hc
    rcases List.mem_singleton.mp hc with rfl
    simp [pickCur]
  | cons x xs ih =>
    intro a c hc
    rw [pickCur_step]
    rcases List.mem_cons.mp hc with rfl | hc'
    · refine le_trans ?_ (pickCur_conf_ge_start xs _)
      by_cases hcm : c.2 ≤ x.2 <;> simp [hcm]
    · rcases List.mem_cons.mp hc' with rfl | hc''
      · refine le_trans ?_ (pickCur_conf_ge_start xs _)
        by_cases hcm : a.2 ≤ c.2 <;> simp [hcm]
        exact (not_le.mp hcm).le
      · exact ih _ c (List.mem_cons_of_mem _ hc'')

theorem pickCur_of_strict : ∀ (l : List Cand) (a : Cand),
    (∀ x ∈ l, x.2 < a.2) → pickCur a l = a := by
  intro l
  induction l with
  | nil => intro a _; rfl
  | cons x xs ih =>
    intro a hstrict
    have hx : ¬ a.2 ≤ x.2 := not_le.mpr (hstrict x (List.mem_cons_self x xs))
    rw [pickCur_step, if_neg hx]
    exact ih a (fun y hy => hstrict y (List.mem_cons_of_mem x hy))

/-! ### Structural lemmas about the NMS loop -/

theorem nms_nil (t : ℚ) (fuel : ℕ) : nms t fuel [] = some [] := by
  cases fuel <;> rfl

theorem nms_cons (t : ℚ) (fuel : ℕ) (a : Cand) (l : List Cand) :
    nms t (fuel + 1) (a :: l) =
      (if ((a :: l).filter (fun c => nanLt (compute_iou (pickCur a l).1 c.1) t)).isEmpty
       then some [pickCur a l]
       else (nms t fuel ((a :: l).filter
              (fun c => nanLt (compute_iou (pickCur a l).1 c.1) t))).map
              (fun out => pickCur a l :: out)) := rfl

theorem nms_mem {t : ℚ} : ∀ (fuel : ℕ) (l out : List Cand),
    nms t fuel l = some out → ∀ c ∈ out, c ∈ l := by
  intro fuel
  induction fuel with
  | zero =>
    intro l out h c hc
    cases l with
    | nil => rw [nms_nil] at h; injection h with h2; subst h2; simp at hc
    | cons a l' => simp [nms] at h
  | succ fuel ih =>
    intro l out h c hc
    cases l with
    | nil => rw [nms_nil] at h; injection h with h2; subst h2; simp at hc
    | cons a l' =>
      rw [nms_cons] at h
      by_cases hk : ((a :: l').filter (fun c => nanLt (compute_iou (pickCur a l').1 c.1) t)).isEmpty
      · rw [if_pos hk] at h
        injection h with h2
        subst h2
        rcases List.mem_singleton.mp hc with rfl
        exact pickCur_mem l' a
      · rw [if_neg hk] at h
        rcases Option.map_eq_some'.mp h with ⟨out', hout', rfl⟩
        rcases List.mem_cons.mp hc with rfl | hc'
        · exact pickCur_mem l' a
        · exact List.mem_of_mem_filter (ih _ out' hout' c hc')

theorem nms_sorted {t : ℚ} : ∀ (fuel : ℕ) (l out : List Cand),
    nms t fuel l = some out → out.Pairwise (fun p q => q.2 ≤ p.2) := by
  intro fuel
  induction fuel with
  | zero =>
    intro l out h
    cases l with
    | nil => rw [nms_nil] at h; injection h with h2; subst h2; simp
    | cons a l' => simp [nms] at h
  | succ fuel ih =>
    intro l out h
    cases l with
    | nil => rw [nms_nil] at h; injection h with h2; subst h2; simp
    | cons a l' =>
      rw [nms_cons] at h
      by_cases hk : ((a :: l').filter (fun c => nanLt (compute_iou (pickCur a l').1 c.1) t)).isEmpty
      · rw [if_pos hk] at h
        injection h with h2
        subst h2
        simp
      · rw [if_neg hk] at h
        rcases Option.map_eq_some'.mp h with ⟨out', hout', rfl⟩
        refine List.pairwise_cons.mpr ⟨?_, ih _ out' hout'⟩
        intro q hq
        have hq' : q ∈ (a :: l').filter (fun c => nanLt (compute_iou (pickCur a l').1 c.1) t) :=
          nms_mem fuel _ out' hout' q hq
        exact pickCur_conf_ge l' a q (List.mem_of_mem_filter hq')

theorem nms_pairwise {t : ℚ} : ∀ (fuel : ℕ) (l out : List Cand),
    nms t fuel l = some out →
    out.Pairwise (fun p q => nanLt (compute_iou p.1 q.1) t = true) := by
  intro fuel
  induction fuel with
  | zero =>
    intro l out h
    cases l with
    | nil => rw [nms_nil] at h; injection h with h2; subst h2; simp
    | cons a l' => simp [nms] at h
  | succ fuel ih =>
    intro l out h
    cases l with
    | nil => rw [nms_nil] at h; injection h with h2; subst h2; simp
    | cons a l' =>
      rw [nms_cons] at h
      by_cases hk : ((a :: l').filter (fun c => nanLt (compute_iou (pickCur a l').1 c.1) t)).isEmpty
      · rw [if_pos hk] at h
        injection h with h2
        subst h2
        simp
      · rw [if_neg hk] at h
        rcases Option.map_eq_some'.mp h with ⟨out', hout', rfl⟩
        refine List.pairwise_cons.mpr ⟨?_, ih _ out' hout'⟩
        intro q hq
        have hq' : q ∈ (a :: l').filter (fun c => nanLt (compute_iou (pickCur a l').1 c.1) t) :=
          nms_mem fuel _ out' hout' q hq
        exact (List.mem_filter.mp hq').2

theorem nms_fix {t : ℚ} (ht : t ≤ 1) : ∀ (l : List Cand) (fuel : ℕ),
    l.length ≤ fuel →
    (∀ c ∈ l, 0 ≤ boxW c.1 ∧ 0 ≤ boxH c.1) →
    l.Pairwise (fun p q => nanLt (compute_iou p.1 q.1) t = true) →
    l.Pairwise (fun p q => q.2 < p.2) →
    nms t fuel l = some l := by
  intro l
  induction l with
  | nil => intro fuel _ _ _ _; exact nms_nil t fuel
  | cons a l' ih =>
    intro fuel hfuel hG hpw hsort
    cases fuel with
    | zero => simp at hfuel
    | succ fuel =>
      have hstrict : ∀ x ∈ l', x.2 < a.2 := (List.pairwise_cons.mp hsort).1
      have hcur : pickCur a l' = a := pickCur_of_strict l' a hstrict
      have hGa := hG a (List.mem_cons_self a l')
      have hself : nanLt (compute_iou a.1 a.1) t = false :=
        selfNanLt_false a.1 hGa.1 hGa.2 ht
      have hkeep : ∀ x ∈ l', nanLt (compute_iou a.1 x.1) t = true :=
        (List.pairwise_cons.mp hpw).1
      have hfilter : (a :: l').filter (fun c => nanLt (compute_iou (pickCur a l').1 c.1) t) = l' := by
        rw [hcur, List.filter_cons]
        simp only [hself, if_false]
        exact List.filter_eq_self.mpr hkeep
      rw [nms_cons, hfilter, hcur]
      cases l' with
      | nil => simp
      | cons b l'' =>
        have hne : ¬ (List.isEmpty (b :: l'') = true) := by simp
        rw [if_neg hne]
        rw [ih fuel (by simpa using hfuel)
          (fun c hc => hG c (List.mem_cons_of_mem a hc))
          (List.pairwise_cons.mp hpw).2
          (List.pairwise_cons.mp hsort).2]
        rfl

/-! ### Idempotence of the Detection Filter (on distinct confidences) -/

theorem mem_sig_conf {tSig : ℚ} {cands : List Cand} {c : Cand}
    (h : c ∈ cands.filter (fun c => decide (tSig < c.2))) : tSig < c.2 := by
  have := (List.mem_filter.mp h).2
  simpa using this

/-- Claim C9 (amended): the Detection Filter (confidence threshold plus
NMS) is idempotent on candidate lists whose confidences are pairwise
distinct and whose boxes have nonnegative width and height, for an overlap
threshold of at most 1 (the source uses 0.3): applying the filter to its own
output returns that output unchanged, because every pair of surviving boxes
has IoU strictly below the overlap threshold and every survivor is above the
significance threshold.  With *tied* confidences the surviving set is
unchanged but tied boxes can swap positions (see the counterexample), which
is the only amendment the code forces. -/
theorem filterCands_idem (tSig tOv : ℚ) (cands out : List Cand)
    (hG : ∀ c ∈ cands, 0 ≤ boxW c.1 ∧ 0 ≤ boxH c.1)
    (hD : (cands.map (·.2)).Pairwise (· ≠ ·))
    (ht : tOv ≤ 1)
    (h : filterCands tSig tOv cands = some out) :
    filterCands tSig tOv out = some out := by
  unfold filterCands at h
  set sig := cands.filter (fun c => decide (tSig < c.2)) with hsig
  have hsub : sig.Sublist cands := List.filter_sublist cands
  have hGs : ∀ c ∈ sig, 0 ≤ boxW c.1 ∧ 0 ≤ boxH c.1 :=
    fun c hc => hG c (hsub.mem hc)
  have hDs : (sig.map (·.2)).Pairwise (· ≠ ·) := hD.sublist (hsub.map (·.2))
  have hmem : ∀ c ∈ out, c ∈ sig := nms_mem sig.length sig out h
  have hGo : ∀ c ∈ out, 0 ≤ boxW c.1 ∧ 0 ≤ boxH c.1 := fun c hc => hGs c (hmem c hc)
  have hpw : out.Pairwise (fun p q => nanLt (compute_iou p.1 q.1) tOv = true) :=
    nms_pairwise sig.length sig out h
  have hsorted : out.Pairwise (fun p q => q.2 ≤ p.2) := nms_sorted sig.length sig out h
  -- distinct values in the output, hence distinct (and strictly ordered) confidences
  have hconf : ∀ p ∈ sig, ∀ q ∈ sig, p ≠ q → p.2 ≠ q.2 := by
    have h1 : sig.Pairwise (fun p q : Cand => p.2 ≠ q.2) := List.pairwise_map.mp hDs
    have hsymm : Symmetric (fun p q : Cand => p.2 ≠ q.2) := fun a b hab h => hab h.symm
    exact fun p hp q hq hne => h1.forall hsymm hp hq hne
  have hstrict : out.Pairwise (fun p q => q.2 < p.2) := by
    refine List.Pairwise.imp_of_mem ?_ (hpw.and hsorted)
    intro p q hp hq hrel
    have hne : p ≠ q := by
      intro hpq
      subst hpq
      have := selfNanLt_false p.1 (hGo p hp).1 (hGo p hp).2 ht
      rw [hrel.1] at this
      simp at this
    exact lt_of_le_of_ne hrel.2 (fun he => hconf p (hmem p hp) q (hmem q hq) hne he.symm)
  have hsig2 : out.filter (fun c => decide (tSig < c.2)) = out := by
    refine List.filter_eq_self.mpr ?_
    intro c hc
    exact decide_eq_true (mem_sig_conf (hmem c hc))
  unfold filterCands
  rw [hsig2]
  exact nms_fix ht out out.length le_rfl hGo hpw hstrict

/-! ### Lemmas for the boundary behaviour of the filter NMS -/

theorem compute_iou_self_pos (b : Box) (hw : 0 < boxW b) (hh : 0 < boxH b) :
    compute_iou b b = some 1 := by
  rcases compute_iou_self_of_nonneg b hw.le hh.le with h | h
  · exfalso
    unfold compute_iou at h
    by_cases hz : unionArea b b = 0
    · have hI : interArea b b = boxArea b := by
        unfold interArea boxArea
        unfold boxW at hw
        unfold boxH at hh
        rw [min_self, min_self, max_self, max_self, max_eq_right hw.le, max_eq_right hh.le]
      have hU : unionArea b b = boxArea b := by
        unfold unionArea; rw [hI]; ring
      rw [hU] at hz
      unfold boxArea at hz
      unfold boxW at hw
      unfold boxH at hh
      nlinarith
    · rw [if_neg hz] at h
      exact Option.some_ne_none _ h
  · exact h

theorem singleton_survives (tSig tOv : ℚ) (c : Cand)
    (hc : tSig < c.2) (hw : 0 < boxW c.1) (hh : 0 < boxH c.1) (ht : tOv ≤ 1) :
    filterCands tSig tOv [c] = some [c] := by
  unfold filterCands
  have hf : [c].filter (fun c => decide (tSig < c.2)) = [c] := by
    simp [List.filter, decide_eq_true hc]
  rw [hf]
  exact nms_fix ht [c] 1 (by simp)
    (fun x hx => by rcases List.mem_singleton.mp hx with rfl; exact ⟨hw.le, hh.le⟩)
    (by simp) (by simp)

theorem responsible_singleton (c : Cand) : responsible [c] = c := rfl

theorem pair_equal_iou_suppressed (tSig tOv : ℚ) (c1 c2 : Cand)
    (h1 : tSig < c1.2) (h2 : tSig < c2.2) (hlt : c2.2 < c1.2)
    (hiou : compute_iou c1.1 c2.1 = some tOv)
    (hw : 0 < boxW c1.1) (hh : 0 < boxH c1.1) (ht : tOv ≤ 1) :
    yolo_filter_predictions tSig tOv [[c1], [c2]] = some [c1] := by
  unfold yolo_filter_predictions
  have hmap : [[c1], [c2]].map responsible = [c1, c2] := rfl
  rw [hmap]
  unfold filterCands
  have hf : [c1, c2].filter (fun c => decide (tSig < c.2)) = [c1, c2] := by
    simp [List.filter, decide_eq_true h1, decide_eq_true h2]
  rw [hf]
  have hpick : pickCur c1 [c2] = c1 := by
    simp [pickCur, not_le.mpr hlt]
  have hself : nanLt (compute_iou c1.1 c1.1) tOv = false := by
    rw [compute_iou_self_pos c1.1 hw hh]
    simp [nanLt, not_lt.mpr ht]
  have hc2 : nanLt (compute_iou c1.1 c2.1) tOv = false := by
    rw [hiou]
    simp [nanLt]
  show nms tOv 2 [c1, c2] = some [c1]
  rw [show (2 : ℕ) = 1 + 1 from rfl, nms_cons, hpick]
  have hfilter : [c1, c2].filter (fun c => nanLt (compute_iou c1.1 c.1) tOv) = [] := by
    simp [List.filter, hself, hc2]
  rw [hfilter]
  rfl

/-! ### Lemmas about `np.argmax` -/

theorem npArgmaxQ_lt_length : ∀ (l : List ℚ), l ≠ [] → npArgmaxQ l < l.length := by
  intro l
  induction l with
  | nil => intro h; exact absurd rfl h
  | cons a l ih =>
    intro _
    cases l with
    | nil => simp [npArgmaxQ]
    | cons b t =>
      rw [npArgmaxQ]
      by_cases hc : a < (b :: t).getD (npArgmaxQ (b :: t)) 0
      · simp only [hc, if_true]
        have := ih (by simp)
        simpa using Nat.succ_lt_succ this
      · simp only [hc, if_false]
        simp

theorem npArgmaxQ_is_max : ∀ (l : List ℚ) (k : ℕ), k < l.length →
    l.getD k 0 ≤ l.getD (npArgmaxQ l) 0 := by
  intro l
  induction l with
  | nil => intro k hk; simp at hk
  | cons a l ih =>
    intro k hk
    cases l with
    | nil =>
      cases k with
      | zero => simp [npArgmaxQ]
      | succ k => simp at hk
    | cons b t =>
      rw [npArgmaxQ]
      by_cases hc : a < (b :: t).getD (npArgmaxQ (b :: t)) 0
      · simp only [hc, if_true]
        cases k with
        | zero => simpa using hc.le
        | succ k =>
          have hk' : k < (b :: t).length := by simpa using hk
          simpa using ih k hk'
      · simp only [hc, if_false]
        cases k with
        | zero => simp
        | succ k =>
          have hk' : k < (b :: t).length := by simpa using hk
          have h2 := ih k hk'
          have h3 : (b :: t).getD (npArgmaxQ (b :: t)) 0 ≤ a := not_lt.mp hc
          simpa using le_trans h2 h3

theorem npArgmaxQ_first : ∀ (l : List ℚ) (k : ℕ), k < npArgmaxQ l →
    l.getD k 0 < l.getD (npArgmaxQ l) 0 := by
  intro l
  induction l with
  | nil => intro k hk; simp [npArgmaxQ] at hk
  | cons a l ih =>
    intro k hk
    cases l with
    | nil => simp [npArgmaxQ] at hk
    | cons b t =>
      rw [npArgmaxQ] at hk ⊢
      by_cases hc : a < (b :: t).getD (npArgmaxQ (b :: t)) 0
      · simp only [hc, if_true] at hk ⊢
        cases k with
        | zero => simpa using hc
        | succ k =>
          have hk' : k < npArgmaxQ (b :: t) := Nat.lt_of_succ_lt_succ hk
          simpa using ih k hk'
      · simp only [hc, if_false] at hk
        simp at hk

/-! ### Lemmas about the mAP matching loop -/

theorem count_false_set : ∀ (l : List Bool) (j : ℕ), l.getD j true = false →
    (l.set j true).count false + 1 = l.count false := by
  intro l
  induction l with
  | nil => intro j h; simp at h
  | cons b t ih =>
    intro j h
    cases j with
    | zero =>
      simp at h
      subst h
      simp [List.count_cons]
    | succ j =>
      simp only [List.getD_cons_succ] at h
      have := ih j h
      simp only [List.set_cons_succ, List.count_cons]
      omega

theorem matchGo_count_le : ∀ (tCor : ℚ) (labs : List Box) (ds : List Cand) (claimed : List Bool),
    (matchGo tCor labs ds claimed).countP (·.2) ≤ claimed.count false := by
  intro tCor labs ds
  induction ds with
  | nil => intro claimed; simp [matchGo]
  | cons d ds ih =>
    intro claimed
    rw [matchGo]
    by_cases hc : (nanGe ((labs.map (fun g => compute_iou d.1 g)).getD
        (npArgmaxO (labs.map (fun g => compute_iou d.1 g))) none) tCor
        && !(claimed.getD (npArgmaxO (labs.map (fun g => compute_iou d.1 g))) true)) = true
    · rw [if_pos hc]
      have hc2 := hc
      simp only [Bool.and_eq_true, Bool.not_eq_true'] at hc2
      have hcount := count_false_set claimed _ hc2.2
      have hrec := ih (claimed.set (npArgmaxO (labs.map (fun g => compute_iou d.1 g))) true)
      simp only [List.countP_cons]
      norm_num
      omega
    · rw [if_neg hc]
      have hrec := ih claimed
      simp only [List.countP_cons]
      simp only [if_neg (by simp : ¬ ((d.2, false).2 = true))]
      omega

theorem matchImage_count_le (tCor : ℚ) (labs : List Box) (dets : List Cand) :
    (matchImage tCor labs dets).countP (·.2) ≤ labs.length := by
  unfold matchImage
  have := matchGo_count_le tCor labs dets (List.replicate labs.length false)
  simpa using this

theorem matchGo_confs : ∀ (tCor : ℚ) (labs : List Box) (ds : List Cand) (claimed : List Bool),
    (matchGo tCor labs ds claimed).map (·.1) = ds.map (·.2) := by
  intro tCor labs ds
  induction ds with
  | nil => intro claimed; simp [matchGo]
  | cons d ds ih =>
    intro claimed
    rw [matchGo]
    by_cases hc : (nanGe ((labs.map (fun g => compute_iou d.1 g)).getD
        (npArgmaxO (labs.map (fun g => compute_iou d.1 g))) none) tCor
        && !(claimed.getD (npArgmaxO (labs.map (fun g => compute_iou d.1 g))) true)) = true
    · rw [if_pos hc]
      simp only [List.map_cons, ih]
    · rw [if_neg hc]
      simp only [List.map_cons, ih]

theorem imageDetections_count_le (tCor : ℚ) (lab : Option (List Box)) (pred : Option (List Cand)) :
    (imageDetections tCor lab pred).countP (·.2) ≤ nTruths [lab] := by
  match lab, pred with
  | none, none => simp [imageDetections]
  | some labs, none => simp [imageDetections]
  | none, some dets =>
    have h : (imageDetections tCor none (some dets)).countP (·.2) = 0 := by
      simp [imageDetections, List.countP_map, Function.comp_def]
    simp [h]
  | some labs, some dets =>
    have h : nTruths [some labs] = labs.length := by simp [nTruths]
    rw [h]
    simpa [imageDetections] using matchImage_count_le tCor labs dets

theorem buildDetections_count_le (tCor : ℚ) :
    ∀ (labels : List (Option (List Box))) (preds : List (Option (List Cand))),
    (buildDetections tCor labels preds).countP (·.2) ≤ nTruths labels := by
  intro labels
  induction labels with
  | nil => intro preds; simp [buildDetections, nTruths]
  | cons lab labels ih =>
    intro preds
    cases preds with
    | nil => simp [buildDetections, nTruths]
    | cons pred preds =>
      have hstep : buildDetections tCor (lab :: labels) (pred :: preds) =
          imageDetections tCor lab pred ++ buildDetections tCor labels preds := by
        simp [buildDetections]
      have hT : nTruths (lab :: labels) = nTruths [lab] + nTruths labels := by
        cases lab <;> simp [nTruths]
      have h1 := imageDetections_count_le tCor lab pred
      have h2 := ih preds
      rw [hstep, List.countP_append, hT]
      omega

/-! ### Coordinate decoding lemmas -/

theorem xywh_to_xyxy_formula (g : Grid) (i : ℕ) (σx σy ew eh aw ah : ℚ) :
    xywh_to_xyxy g i σx σy (ew * aw) (eh * ah) =
      ⟨(σx + ((i % g.gw : ℕ) : ℚ)) * g.iw / (g.gw : ℚ) - ew * aw * g.iw / (g.gw : ℚ) / 2,
       (σy + ((i / g.gw : ℕ) : ℚ)) * g.ih / (g.gh : ℚ) - eh * ah * g.ih / (g.gh : ℚ) / 2,
       (σx + ((i % g.gw : ℕ) : ℚ)) * g.iw / (g.gw : ℚ) + ew * aw * g.iw / (g.gw : ℚ) / 2,
       (σy + ((i / g.gw : ℕ) : ℚ)) * g.ih / (g.gh : ℚ) + eh * ah * g.ih / (g.gh : ℚ) / 2⟩ := by
  unfold xywh_to_xyxy
  simp only [Box.mk.injEq]
  refine ⟨by ring, by ring, by ring, by ring⟩

theorem pyInt_add_nat (q : ℚ) (n : ℕ) (hq : 0 ≤ q) :
    pyInt (q + (n : ℚ)) = pyInt q + (n : ℤ) := by
  unfold pyInt
  have h1 : (0 : ℚ) ≤ q + (n : ℚ) := by positivity
  rw [if_pos h1, if_pos hq]
  have : ((n : ℤ) : ℚ) = (n : ℚ) := by push_cast; ring
  rw [← this, Int.floor_add_int]

theorem patchDecode_offsets (gw gh nph : ℕ) (pwn phn : ℕ) (iw ih aw ah σx σy ew eh : ℚ)
    (i j : ℕ)
    (hx : 0 ≤ (σx + ((j % gw : ℕ) : ℚ)) * ((pwn : ℚ) / (gw : ℚ)) - ew * aw * (iw / (gw : ℚ)) / 2)
    (hy : 0 ≤ (σy + ((j / gw : ℕ) : ℚ)) * ((phn : ℚ) / (gh : ℚ)) - eh * ah * (ih / (gh : ℚ)) / 2)
    (hw : 0 ≤ ew * aw * (iw / (gw : ℚ)))
    (hh : 0 ≤ eh * ah * (ih / (gh : ℚ))) :
    patchDecode gw gh (pwn : ℚ) (phn : ℚ) iw ih nph aw ah i j σx σy ew eh =
      (pyInt ((σx + ((j % gw : ℕ) : ℚ)) * ((pwn : ℚ) / (gw : ℚ)) - ew * aw * (iw / (gw : ℚ)) / 2)
         + ((i % nph) * pwn : ℕ),
       pyInt ((σy + ((j / gw : ℕ) : ℚ)) * ((phn : ℚ) / (gh : ℚ)) - eh * ah * (ih / (gh : ℚ)) / 2)
         + ((i / nph) * phn : ℕ),
       pyInt ((σx + ((j % gw : ℕ) : ℚ)) * ((pwn : ℚ) / (gw : ℚ)) + ew * aw * (iw / (gw : ℚ)) / 2)
         + ((i % nph) * pwn : ℕ),
       pyInt ((σy + ((j / gw : ℕ) : ℚ)) * ((phn : ℚ) / (gh : ℚ)) + eh * ah * (ih / (gh : ℚ)) / 2)
         + ((i / nph) * phn : ℕ)) := by
  unfold patchDecode
  have e1 : (σx + ((j % gw : ℕ) : ℚ)) * ((pwn : ℚ) / (gw : ℚ)) + ((i % nph : ℕ) : ℚ) * (pwn : ℚ)
      - ew * aw * (iw / (gw : ℚ)) / 2
      = ((σx + ((j % gw : ℕ) : ℚ)) * ((pwn : ℚ) / (gw : ℚ)) - ew * aw * (iw / (gw : ℚ)) / 2)
        + (((i % nph) * pwn : ℕ) : ℚ) := by
    push_cast
    ring
  have e2 : (σy + ((j / gw : ℕ) : ℚ)) * ((phn : ℚ) / (gh : ℚ)) + ((i / nph : ℕ) : ℚ) * (phn : ℚ)
      - eh * ah * (ih / (gh : ℚ)) / 2
      = ((σy + ((j / gw : ℕ) : ℚ)) * ((phn : ℚ) / (gh : ℚ)) - eh * ah * (ih / (gh : ℚ)) / 2)
        + (((i / nph) * phn : ℕ) : ℚ) := by
    push_cast
    ring
  have e3 : (σx + ((j % gw : ℕ) : ℚ)) * ((pwn : ℚ) / (gw : ℚ)) + ((i % nph : ℕ) : ℚ) * (pwn : ℚ)
      + ew * aw * (iw / (gw : ℚ)) / 2
      = ((σx + ((j % gw : ℕ) : ℚ)) * ((pwn : ℚ) / (gw : ℚ)) + ew * aw * (iw / (gw : ℚ)) / 2)
        + (((i % nph) * pwn : ℕ) : ℚ) := by
    push_cast
    ring
  have e4 : (σy + ((j / gw : ℕ) : ℚ)) * ((phn : ℚ) / (gh : ℚ)) + ((i / nph : ℕ) : ℚ) * (phn : ℚ)
      + eh * ah * (ih / (gh : ℚ)) / 2
      = ((σy + ((j / gw : ℕ) : ℚ)) * ((phn : ℚ) / (gh : ℚ)) + eh * ah * (ih / (gh : ℚ)) / 2)
        + (((i / nph) * phn : ℕ) : ℚ) := by
    push_cast
    ring
  have hx2 : 0 ≤ (σx + ((j % gw : ℕ) : ℚ)) * ((pwn : ℚ) / (gw : ℚ)) + ew * aw * (iw / (gw : ℚ)) / 2 := by
    nlinarith
  have hy2 : 0 ≤ (σy + ((j / gw : ℕ) : ℚ)) * ((phn : ℚ) / (gh : ℚ)) + eh * ah * (ih / (gh : ℚ)) / 2 := by
    nlinarith
  dsimp only
  rw [e1, e2, e3, e4]
  simp only [Prod.mk.injEq]
  refine ⟨?_, ?_, ?_, ?_⟩
  · rw [pyInt_add_nat _ _ hx]
  · rw [pyInt_add_nat _ _ hy]
  · rw [pyInt_add_nat _ _ hx2]
  · rw [pyInt_add_nat _ _ hy2]

/-! ### Remaining helper lemmas -/

theorem nanLt_mono {a : Option ℚ} {t1 t2 : ℚ} (h : t1 ≤ t2) (ha : nanLt a t1 = true) :
    nanLt a t2 = true := by
  cases a with
  | none => simp [nanLt] at ha
  | some q =>
    simp only [nanLt, decide_eq_true_eq] at ha ⊢
    exact lt_of_lt_of_le ha h

theorem filter_step_monotone (cur : Cand) (l : List Cand) (t1 t2 : ℚ) (h : t1 ≤ t2) :
    (l.filter (fun c => nanLt (compute_iou cur.1 c.1) t1)).Sublist
      (l.filter (fun c => nanLt (compute_iou cur.1 c.1) t2)) := by
  apply List.monotone_filter_right
  intro c hc
  exact nanLt_mono h hc

theorem interpretImage_pooled (t : ℚ) (patchCands : List (List Cand)) :
    interpretImage t patchCands = interpretImage t [patchCands.flatten] := by
  unfold interpretImage
  simp

theorem decodeCell_none_iff (thresh : ℚ) (confs : List ℚ) (hne : confs ≠ []) :
    decodeCell thresh confs = none ↔ ∀ k < confs.length, confs.getD k 0 ≤ thresh := by
  unfold decodeCell
  constructor
  · intro h k hk
    by_cases hc : thresh < confs.getD (npArgmaxQ confs) 0
    · rw [if_pos hc] at h
      exact absurd h (by simp)
    · exact le_trans (npArgmaxQ_is_max confs k hk) (not_lt.mp hc)
  · intro h
    have hmax := h (npArgmaxQ confs) (npArgmaxQ_lt_length confs hne)
    rw [if_neg (not_lt.mpr hmax)]

theorem decodeCell_some (thresh : ℚ) (confs : List ℚ) (m : ℕ)
    (h : decodeCell thresh confs = some m) :
    thresh < confs.getD m 0 ∧ (∀ k < confs.length, confs.getD k 0 ≤ confs.getD m 0) ∧
      (∀ k < m, confs.getD k 0 < confs.getD m 0) := by
  unfold decodeCell at h
  by_cases hc : thresh < confs.getD (npArgmaxQ confs) 0
  · rw [if_pos hc] at h
    injection h with h2
    subst h2
    exact ⟨hc, fun k hk => npArgmaxQ_is_max confs k hk, fun k hk => npArgmaxQ_first confs k hk⟩
  · rw [if_neg hc] at h
    exact absurd h (Option.some_ne_none m).symm

/-! ### Claim theorems -/

/-- Claim C1 (code bug): with zero ground-truth boxes over all images but a
non-empty detection record list, `__yolo_map` does *not* return the
well-defined value 0: the unguarded recall division `true_positives /
n_truths` is `0.0 / 0.0 = NaN` (modelled `none`) and the NaN propagates to
the returned mAP.  Failing input: one image with no ground truth (`None`
label) and two filtered detections. -/
theorem C1_zero_truths_map_nan :
    buildDetections (1/2) [none] [some [(⟨0, 0, 2, 2⟩, 7/10), (⟨5, 5, 7, 7⟩, 4/5)]] ≠ [] ∧
    nTruths [none] = 0 ∧
    yolo_map (1/2) [none] [some [(⟨0, 0, 2, 2⟩, 7/10), (⟨5, 5, 7, 7⟩, 4/5)]] = none := by
  refine ⟨?_, by simp [nTruths], ?_⟩
  · norm_num [buildDetections, imageDetections]
    simp
  · norm_num [yolo_map, buildDetections, imageDetections, nTruths, sortDesc, insertDesc,
      cumsum, backMax, oSub, oSum, List.scanl, List.range, List.range.loop]

/-- Claim C2 counterexample: for two degenerate (zero-width) boxes the union
is 0 but `__compute_iou` does not return 0 — the unguarded `0.0 / 0.0`
division yields NaN (`none`). -/
theorem C2_counterexample :
    unionArea ⟨0, 0, 0, 5⟩ ⟨0, 0, 0, 5⟩ = 0 ∧
    compute_iou ⟨0, 0, 0, 5⟩ ⟨0, 0, 0, 5⟩ = none ∧
    compute_iou ⟨0, 0, 0, 5⟩ ⟨0, 0, 0, 5⟩ ≠ some 0 := by
  norm_num [compute_iou, unionArea, interArea, boxArea]
  simp

/-- Claim C2 (amended): when the union area of two corner-form boxes is 0
the intersection is necessarily 0 as well and `__compute_iou` evaluates the
undefined `0/0` (NaN, modelled `none`) — not 0; for every other input it
returns intersection/union with intersection
`max(0, x2-x1) * max(0, y2-y1)` over the overlap corners. -/
theorem C2_degenerate_union_iou_nan (b1 b2 : Box) :
    (unionArea b1 b2 = 0 → interArea b1 b2 = 0 ∧ compute_iou b1 b2 = none) ∧
    (unionArea b1 b2 ≠ 0 →
      compute_iou b1 b2 = some (interArea b1 b2 / unionArea b1 b2)) := by
  constructor
  · intro h
    refine ⟨interArea_eq_zero_of_unionArea_eq_zero b1 b2 h, ?_⟩
    unfold compute_iou
    rw [if_pos h]
  · intro h
    unfold compute_iou
    rw [if_neg h]

/-- Witness for C2: the amended theorem applied at a degenerate pair and at
a regular pair. -/
theorem C2_witness :
    interArea ⟨0, 0, 0, 5⟩ ⟨0, 0, 0, 5⟩ = 0 ∧
    compute_iou ⟨0, 0, 1, 1⟩ ⟨0, 0, 1, 1⟩ =
      some (interArea ⟨0, 0, 1, 1⟩ ⟨0, 0, 1, 1⟩ / unionArea ⟨0, 0, 1, 1⟩ ⟨0, 0, 1, 1⟩) :=
  ⟨((C2_degenerate_union_iou_nan ⟨0, 0, 0, 5⟩ ⟨0, 0, 0, 5⟩).1
      (by norm_num [unionArea, interArea, boxArea])).1,
   (C2_degenerate_union_iou_nan ⟨0, 0, 1, 1⟩ ⟨0, 0, 1, 1⟩).2
      (by norm_num [unionArea, interArea, boxArea])⟩

/-- Claim C3 counterexample: a remaining box whose IoU with the selected box
is *exactly* the overlap threshold (here 3/10) is suppressed by
`__yolo_filter_predictions` (the loop keeps only `iou < threshold`), contrary
to the claim that only strictly-greater IoU is suppressed. -/
theorem C3_counterexample :
    compute_iou ⟨0, 0, 10, 10⟩ ⟨0, 0, 10, 3⟩ = some (3/10) ∧
    yolo_filter_predictions (3/5) (3/10)
      [[(⟨0, 0, 10, 10⟩, 9/10)], [(⟨0, 0, 10, 3⟩, 4/5)]]
      = some [(⟨0, 0, 10, 10⟩, 9/10)] := by
  constructor
  · norm_num [compute_iou, unionArea, interArea, boxArea]
  · norm_num [yolo_filter_predictions, filterCands, responsible, npArgmaxQ, nms, pickCur,
      nanLt, compute_iou, unionArea, interArea, boxArea, List.filter]

/-- Claim C3 (amended): the NMS loop of `__yolo_filter_predictions`
repeatedly takes the highest-confidence remaining box and removes it
together with every remaining box whose IoU with it is greater than *or
equal to* `overlap_threshold` (the source keeps only `iou < threshold`, so
IoU exactly equal to the threshold is suppressed); a single candidate with
positive width and height always survives. -/
theorem C3_threshold_suppression (tSig tOv : ℚ) (c1 c2 : Cand)
    (h1 : tSig < c1.2) (h2 : tSig < c2.2) (hlt : c2.2 < c1.2)
    (hiou : compute_iou c1.1 c2.1 = some tOv)
    (hw : 0 < boxW c1.1) (hh : 0 < boxH c1.1) (ht : tOv ≤ 1) :
    yolo_filter_predictions tSig tOv [[c1], [c2]] = some [c1] ∧
    (∀ c : Cand, tSig < c.2 → 0 < boxW c.1 → 0 < boxH c.1 →
      yolo_filter_predictions tSig tOv [[c]] = some [c]) := by
  refine ⟨pair_equal_iou_suppressed tSig tOv c1 c2 h1 h2 hlt hiou hw hh ht, ?_⟩
  intro c hc hcw hch
  show filterCands tSig tOv [c] = some [c]
  exact singleton_survives tSig tOv c hc hcw hch ht

/-- Witness for C3: the amended theorem at the concrete equal-IoU pair. -/
theorem C3_witness :
    yolo_filter_predictions (3/5) (3/10)
      [[(⟨0, 0, 10, 10⟩, 9/10)], [(⟨0, 0, 10, 3⟩, 4/5)]]
      = some [(⟨0, 0, 10, 10⟩, 9/10)] :=
  (C3_threshold_suppression (3/5) (3/10) (⟨0, 0, 10, 10⟩, 9/10) (⟨0, 0, 10, 3⟩, 4/5)
    (by norm_num) (by norm_num) (by norm_num)
    (by norm_num [compute_iou, unionArea, interArea, boxArea])
    (by norm_num [boxW]) (by norm_num [boxH]) (by norm_num)).1

/-- Claim C4: during mAP matching every ground-truth box is claimed at most
once within its image (the claimed flag is per-image), so the number of
true-positive records of one image never exceeds that image's ground-truth
count, and the dataset-wide true-positive count never exceeds the total
ground-truth count. -/
theorem C4_claimed_at_most_once (tCor : ℚ) (labs : List Box) (dets : List Cand)
    (labels : List (Option (List Box))) (preds : List (Option (List Cand))) :
    (matchImage tCor labs dets).countP (·.2) ≤ labs.length ∧
    (buildDetections tCor labels preds).countP (·.2) ≤ nTruths labels :=
  ⟨matchImage_count_le tCor labs dets, buildDetections_count_le tCor labels preds⟩

/-- Claim C5: per grid cell, the Box Decoder emits no candidate iff every
anchor confidence is at most the detection threshold, and when it emits the
selected anchor it is the one of maximal sigmoid confidence with ties broken
by the lowest index, with confidence strictly above the threshold; the
`Option` result makes at most one candidate per cell structural. -/
theorem C5_decode_cell (thresh : ℚ) (confs : List ℚ) (hne : confs ≠ []) :
    (decodeCell thresh confs = none ↔ ∀ k < confs.length, confs.getD k 0 ≤ thresh) ∧
    (∀ m, decodeCell thresh confs = some m →
      m < confs.length ∧ thresh < confs.getD m 0 ∧
      (∀ k < confs.length, confs.getD k 0 ≤ confs.getD m 0) ∧
      (∀ k < m, confs.getD k 0 < confs.getD m 0)) := by
  refine ⟨decodeCell_none_iff thresh confs hne, ?_⟩
  intro m h
  have hlt : m < confs.length := by
    unfold decodeCell at h
    by_cases hc : thresh < confs.getD (npArgmaxQ confs) 0
    · rw [if_pos hc] at h
      injection h with h2
      subst h2
      exact npArgmaxQ_lt_length confs hne
    · rw [if_neg hc] at h
      exact absurd h (by simp)
  have h3 := decodeCell_some thresh confs m h
  exact ⟨hlt, h3.1, h3.2.1, h3.2.2⟩

/-- Witness for C5: a cell with tied maximal confidences selects the lower
index, and the selected confidence is above the threshold. -/
theorem C5_witness :
    1 < ([1/2, 9/10, 9/10, 1/10, 1/10] : List ℚ).length ∧
    (3 : ℚ)/5 < ([1/2, 9/10, 9/10, 1/10, 1/10] : List ℚ).getD 1 0 :=
  have h := (C5_decode_cell (3/5) [1/2, 9/10, 9/10, 1/10, 1/10] (by simp)).2 1
    (by norm_num [decodeCell, npArgmaxQ])
  ⟨h.1, h.2.1⟩

/-- Claim C6: `xywh_to_xyxy` decodes cell index `i` row-major
(`col = i % grid_w`, `row = i // grid_w`), the absolute centre is
`(σ + col) * image_w / grid_w` (resp. rows), the absolute size is
`exp(t) * anchor * image / grid`, and the emitted corners are
centre ∓ size/2.  The grid dimensions are positive in any configured
model. -/
theorem C6_coord_convert (g : Grid) (hgw : 0 < g.gw) (hgh : 0 < g.gh)
    (i : ℕ) (σx σy ew eh aw ah : ℚ) :
    xywh_to_xyxy g i σx σy (ew * aw) (eh * ah) =
      ⟨(σx + ((i % g.gw : ℕ) : ℚ)) * g.iw / (g.gw : ℚ) - ew * aw * g.iw / (g.gw : ℚ) / 2,
       (σy + ((i / g.gw : ℕ) : ℚ)) * g.ih / (g.gh : ℚ) - eh * ah * g.ih / (g.gh : ℚ) / 2,
       (σx + ((i % g.gw : ℕ) : ℚ)) * g.iw / (g.gw : ℚ) + ew * aw * g.iw / (g.gw : ℚ) / 2,
       (σy + ((i / g.gw : ℕ) : ℚ)) * g.ih / (g.gh : ℚ) + eh * ah * g.ih / (g.gh : ℚ) / 2⟩ :=
  xywh_to_xyxy_formula g i σx σy ew eh aw ah

/-- Witness for C6: a 2×2 grid on a 100×100 image, cell 3 (col 1, row 1),
centre offsets 1/2 and unit anchor/exponential values decode to the box
(50, 50, 100, 100). -/
theorem C6_witness :
    xywh_to_xyxy ⟨2, 2, 100, 100⟩ 3 (1/2) (1/2) (1 * 1) (1 * 1) = ⟨50, 50, 100, 100⟩ := by
  rw [C6_coord_convert ⟨2, 2, 100, 100⟩ (by norm_num) (by norm_num) 3 (1/2) (1/2) 1 1 1 1]
  norm_num

/-- Claim C7: under tiling, a patch-local detection is mapped into
full-image coordinates by adding `(patch_index % patches_horiz) *
patch_width` to x and `(patch_index // patches_horiz) * patch_height` to y,
the same offset being applied (before the `int(...)` truncation) to both
corners of the box; and the NMS of the interpreted output runs once over the
pooled candidate list of the whole image — the result depends only on the
flattened pool, not on the per-patch grouping. -/
theorem C7_patch_stitching (gw gh nph : ℕ) (pw ph : ℚ) (pwn phn : ℕ)
    (hpw : pw = (pwn : ℚ)) (hph : ph = (phn : ℚ))
    (iw ih aw ah σx σy ew eh : ℚ) (i j : ℕ)
    (hx : 0 ≤ (σx + ((j % gw : ℕ) : ℚ)) * (pw / (gw : ℚ)) - ew * aw * (iw / (gw : ℚ)) / 2)
    (hy : 0 ≤ (σy + ((j / gw : ℕ) : ℚ)) * (ph / (gh : ℚ)) - eh * ah * (ih / (gh : ℚ)) / 2)
    (hw : 0 ≤ ew * aw * (iw / (gw : ℚ)))
    (hh : 0 ≤ eh * ah * (ih / (gh : ℚ))) :
    patchDecode gw gh pw ph iw ih nph aw ah i j σx σy ew eh =
      (pyInt ((σx + ((j % gw : ℕ) : ℚ)) * (pw / (gw : ℚ)) - ew * aw * (iw / (gw : ℚ)) / 2)
         + ((i % nph) * pwn : ℕ),
       pyInt ((σy + ((j / gw : ℕ) : ℚ)) * (ph / (gh : ℚ)) - eh * ah * (ih / (gh : ℚ)) / 2)
         + ((i / nph) * phn : ℕ),
       pyInt ((σx + ((j % gw : ℕ) : ℚ)) * (pw / (gw : ℚ)) + ew * aw * (iw / (gw : ℚ)) / 2)
         + ((i % nph) * pwn : ℕ),
       pyInt ((σy + ((j / gw : ℕ) : ℚ)) * (ph / (gh : ℚ)) + eh * ah * (ih / (gh : ℚ)) / 2)
         + ((i / nph) * phn : ℕ)) ∧
    (∀ (t : ℚ) (patchCands : List (List Cand)),
      interpretImage t patchCands = interpretImage t [patchCands.flatten]) := by
  subst hpw hph
  exact ⟨patchDecode_offsets gw gh nph pwn phn iw ih aw ah σx σy ew eh i j hx hy hw hh,
    fun t pcs => interpretImage_pooled t pcs⟩

/-- Witness for C7: the spec scenario — 2×1 patches of 50×50, a detection
with patch-local centre (40, 40) and size 20×20 in patch index 1 maps to
image centre (90, 40), i.e. the box (80, 30, 100, 50); and a two-patch pool
is interpreted exactly like its flattened single-patch pool. -/
theorem C7_witness :
    patchDecode 1 1 50 50 100 100 2 (1/5) (1/5) 1 0 (4/5) (4/5) 1 1 = (80, 30, 100, 50) ∧
    interpretImage (3/10) [[(⟨0, 0, 2, 2⟩, 9/10)], [(⟨10, 10, 12, 12⟩, 7/10)]] =
      interpretImage (3/10) [([[(⟨0, 0, 2, 2⟩, 9/10)], [(⟨10, 10, 12, 12⟩, 7/10)]] : List (List Cand)).flatten] := by
  have h := C7_patch_stitching 1 1 2 50 50 50 50 (by norm_num) (by norm_num)
    100 100 (1/5) (1/5) (4/5) (4/5) 1 1 1 0
    (by norm_num) (by norm_num) (by norm_num) (by norm_num)
  constructor
  · rw [h.1]
    norm_num [pyInt]
  · exact h.2 (3/10) [[(⟨0, 0, 2, 2⟩, 9/10)], [(⟨10, 10, 12, 12⟩, 7/10)]]

/-- Claim C8 counterexample: the Detection Filter's output size is *not*
monotone in the overlap threshold.  With the four boxes below, thresholds
1/10 ≤ 3/10 give output sizes 3 and 2 respectively: at the higher threshold
the second-most-confident box survives the first selection and then
suppresses two boxes that the lower threshold kept. -/
theorem C8_counterexample :
    ((1 : ℚ)/10 ≤ 3/10) ∧
    (yolo_filter_predictions (3/5) (1/10)
      [[(⟨0, -5, 10, 0⟩, 19/20)], [(⟨0, -5, 10, 25⟩, 9/10)],
       [(⟨0, 0, 10, 10⟩, 4/5)], [(⟨0, 10, 10, 20⟩, 7/10)]]).map List.length = some 3 ∧
    (yolo_filter_predictions (3/5) (3/10)
      [[(⟨0, -5, 10, 0⟩, 19/20)], [(⟨0, -5, 10, 25⟩, 9/10)],
       [(⟨0, 0, 10, 10⟩, 4/5)], [(⟨0, 10, 10, 20⟩, 7/10)]]).map List.length = some 2 := by
  refine ⟨by norm_num, ?_, ?_⟩ <;>
    norm_num [yolo_filter_predictions, filterCands, responsible, npArgmaxQ, nms, pickCur,
      nanLt, compute_iou, unionArea, interArea, boxArea, List.filter]

/-- Claim C8 (amended): each single suppression step of the NMS loop is
monotone in the overlap threshold — at a fixed selected box, the remaining
boxes kept under `t1 ≤ t2` form a sublist of those kept under `t2`, so one
step never suppresses more at a higher threshold — but, as the
counterexample shows, the size of the whole loop's output is not monotone
in the threshold. -/
theorem C8_step_monotonicity (cur : Cand) (l : List Cand) (t1 t2 : ℚ) (h : t1 ≤ t2) :
    (l.filter (fun c => nanLt (compute_iou cur.1 c.1) t1)).Sublist
      (l.filter (fun c => nanLt (compute_iou cur.1 c.1) t2)) ∧
    (l.filter (fun c => nanLt (compute_iou cur.1 c.1) t1)).length ≤
      (l.filter (fun c => nanLt (compute_iou cur.1 c.1) t2)).length :=
  ⟨filter_step_monotone cur l t1 t2 h, (filter_step_monotone cur l t1 t2 h).length_le⟩

/-- Witness for C8: the step-monotonicity theorem at a concrete pair of
thresholds and boxes. -/
theorem C8_witness :
    (([(⟨0, 0, 10, 3⟩, 4/5), (⟨20, 20, 30, 30⟩, 7/10)] : List Cand).filter
        (fun c => nanLt (compute_iou (⟨0, 0, 10, 10⟩ : Box) c.1) (1/10))).Sublist
      (([(⟨0, 0, 10, 3⟩, 4/5), (⟨20, 20, 30, 30⟩, 7/10)] : List Cand).filter
        (fun c => nanLt (compute_iou (⟨0, 0, 10, 10⟩ : Box) c.1) (3/10))) :=
  (C8_step_monotonicity (⟨0, 0, 10, 10⟩, 9/10)
    [(⟨0, 0, 10, 3⟩, 4/5), (⟨20, 20, 30, 30⟩, 7/10)] (1/10) (3/10) (by norm_num)).1

/-- Claim C9 counterexample: the Detection Filter is not idempotent as a
list-valued function — two tied-confidence, non-overlapping candidates come
out in the opposite order on a second application (the stable ascending
argsort picks the *last* occurrence of the maximal confidence first). -/
theorem C9_counterexample :
    filterCands (3/5) (3/10) [(⟨0, 0, 1, 1⟩, 7/10), (⟨5, 5, 6, 6⟩, 7/10)]
      = some [(⟨5, 5, 6, 6⟩, 7/10), (⟨0, 0, 1, 1⟩, 7/10)] ∧
    filterCands (3/5) (3/10) [(⟨5, 5, 6, 6⟩, 7/10), (⟨0, 0, 1, 1⟩, 7/10)]
      ≠ some [(⟨5, 5, 6, 6⟩, 7/10), (⟨0, 0, 1, 1⟩, 7/10)] := by
  constructor <;>
    norm_num [filterCands, nms, pickCur, nanLt, compute_iou, unionArea, interArea, boxArea,
      List.filter]

/-- Witness for C9: the idempotence theorem applied to a three-candidate
list whose filter output (two surviving boxes) is returned unchanged by a
second application. -/
theorem C9_witness :
    filterCands (3/5) (3/10) [(⟨0, 0, 2, 2⟩, 9/10), (⟨10, 10, 12, 12⟩, 7/10)]
      = some [(⟨0, 0, 2, 2⟩, 9/10), (⟨10, 10, 12, 12⟩, 7/10)] :=
  filterCands_idem (3/5) (3/10)
    [(⟨0, 0, 2, 2⟩, 9/10), (⟨0, 0, 2, 3⟩, 13/20), (⟨10, 10, 12, 12⟩, 7/10)]
    [(⟨0, 0, 2, 2⟩, 9/10), (⟨10, 10, 12, 12⟩, 7/10)]
    (by intro c hc; fin_cases hc <;> norm_num [boxW, boxH])
    (by norm_num [List.pairwise_cons])
    (by norm_num)
    (by norm_num [filterCands, nms, pickCur, nanLt, compute_iou, unionArea, interArea,
      boxArea, List.filter])

/-- Claim C10: the Detection Filter's output list is ordered by
non-increasing confidence, and the mAP matching loop records one detection
per prediction in exactly the input array order, so ground-truth claiming
within an image proceeds in descending-confidence order. -/
theorem C10_descending_order (tSig tOv : ℚ) (preds : List (List Cand)) (out : List Cand)
    (h : yolo_filter_predictions tSig tOv preds = some out)
    (tCor : ℚ) (labs : List Box) (dets : List Cand) :
    (out.map (·.2)).Pairwise (· ≥ ·) ∧
    (matchImage tCor labs dets).map (·.1) = dets.map (·.2) := by
  constructor
  · have hs : out.Pairwise (fun p q => q.2 ≤ p.2) := by
      unfold yolo_filter_predictions filterCands at h
      exact nms_sorted _ _ out h
    exact List.pairwise_map.mpr hs
  · unfold matchImage
    exact matchGo_confs tCor labs dets (List.replicate labs.length false)

/-- Witness for C10: the theorem at a concrete two-cell prediction grid and
a single-detection matching run. -/
theorem C10_witness :
    (([(⟨0, 0, 2, 2⟩, 9/10), (⟨10, 10, 12, 12⟩, 7/10)] : List Cand).map (·.2)).Pairwise (· ≥ ·) ∧
    (matchImage (1/2) [] [(⟨0, 0, 2, 2⟩, 9/10)]).map (·.1) =
      ([(⟨0, 0, 2, 2⟩, 9/10)] : List Cand).map (·.2) :=
  C10_descending_order (3/5) (3/10)
    [[(⟨0, 0, 2, 2⟩, 9/10)], [(⟨10, 10, 12, 12⟩, 7/10)]]
    [(⟨0, 0, 2, 2⟩, 9/10), (⟨10, 10, 12, 12⟩, 7/10)]
    (by norm_num [yolo_filter_predictions, filterCands, responsible, npArgmaxQ, nms, pickCur,
      nanLt, compute_iou, unionArea, interArea, boxArea, List.filter])
    (1/2) [] [(⟨0, 0, 2, 2⟩, 9/10)]
